import Mathlib

/-!
Verification of the statistics / encoding core of pytorch-frame
(`torch_frame/data/stats.py` and the encoder layer specified alongside it).

The stats layer is embedded from `src/torch_frame/data/stats.py`:
pandas `Series` cells become the inductive `Cell`; IEEE floating-point
values become `FloatVal` (an exact rational tagged with explicit
`pinf`/`ninf`/`nan`); `np.std`'s irrational square root is kept symbolic
via the `StatVal.stdOf` constructor (it records the variance, whose
square root the source returns).  Fallibility (`assert sep is not None`)
is modelled by `Option`.
-/

namespace TorchFrame

/-- An IEEE double: an exact finite rational, or one of the special
values `+inf`, `-inf`, `NaN`.  Exact rational arithmetic stands in for
float arithmetic. -/
inductive FloatVal where
  | fin (q : ℚ)
  | pinf
  | ninf
  | nan
deriving DecidableEq

/-- Embeds `np.isfinite`. -/
def FloatVal.isFinite : FloatVal → Bool
  | .fin _ => true
  | _ => false

/-- The semantic types (`torch_frame.stype`), a closed enumeration. -/
inductive Stype where
  | numerical
  | categorical
  | multicategorical
  | timestamp
  | text_embedded
  | text_tokenized
  | embedding
  | sequence_numerical
deriving DecidableEq

/-- The `StatType` enum from `stats.py`. -/
inductive StatType where
  | MEAN
  | STD
  | QUANTILES
  | COUNT
  | MULTI_COUNT
deriving DecidableEq

/-- Embeds `StatType.stats_for_stype`: the dict lookup with default `[]`. -/
def StatType.stats_for_stype : Stype → List StatType
  | .numerical => [.MEAN, .STD, .QUANTILES]
  | .categorical => [.COUNT]
  | .multicategorical => [.MULTI_COUNT]
  | .sequence_numerical => [.MEAN, .STD, .QUANTILES]
  | _ => []

/-- One cell of a pandas `Series` as used by `compute_col_stats`:
a scalar float (`flt`, where `flt .nan` is a missing numerical value),
a list of floats (one `sequence_numerical` row), a categorical label,
a raw multicategorical string, or a null entry (`None`/`NaN` of a
non-float column). -/
inductive Cell where
  | flt (v : FloatVal)
  | seq (vs : List FloatVal)
  | cat (s : String)
  | str (s : String)
  | null
deriving DecidableEq

/-- Embeds `ser.isnull()` on one cell: float `NaN` and `None` are null; lists
and strings are not. -/
def Cell.isnull : Cell → Bool
  | .flt .nan => true
  | .null => true
  | _ => false

/-- The `ser.mask(ser.isin([np.inf, -np.inf]), np.nan)` preprocessing of
`compute_col_stats` on one cell: `±inf` becomes `NaN`. -/
def Cell.maskInf : Cell → Cell
  | .flt .pinf => .flt .nan
  | .flt .ninf => .flt .nan
  | c => c

/-- The contribution of one cell to `np.hstack(np.hstack(ser.values))`:
a scalar contributes itself, a sequence cell its elements.  String and
null cells never reach the numerical statistics. -/
def Cell.flatten : Cell → List FloatVal
  | .flt v => [v]
  | .seq vs => vs
  | _ => []

/-- Embeds `np.hstack(np.hstack(ser.values))` over the whole series:
the entries the double hstack concatenates. -/
def flattenSer (ser : List Cell) : List FloatVal :=
  (ser.map Cell.flatten).flatten

/-- The fallible double `np.hstack`: `np.hstack` raises
`ValueError: need at least one array to concatenate` when it is given
nothing to concatenate, which happens exactly when the series flattens
to zero entries (an empty series, or one whose cells are all empty
sequences). -/
def hstack2 (ser : List Cell) : Option (List FloatVal) :=
  match flattenSer ser with
  | [] => Option.none
  | l => some l

/-- Embeds `flattened[finite_mask]`: the finite entries, as exact rationals. -/
def finiteRats (l : List FloatVal) : List ℚ :=
  l.filterMap fun v => match v with
    | .fin q => some q
    | _ => Option.none

/-- Embeds `np.mean` over exact rationals. -/
def meanQ (l : List ℚ) : ℚ := l.sum / l.length

/-- The variance `np.std` takes the square root of (`ddof = 0`). -/
def varQ (l : List ℚ) : ℚ :=
  (l.map fun x => (x - meanQ l) ^ 2).sum / l.length

/-- Insert into an ascending-sorted list. -/
def insertAsc (x : ℚ) : List ℚ → List ℚ
  | [] => [x]
  | y :: ys => if x ≤ y then x :: y :: ys else y :: insertAsc x ys

/-- Ascending sort, as `np.quantile` sorts its data. -/
def sortAsc : List ℚ → List ℚ
  | [] => []
  | x :: xs => insertAsc x (sortAsc xs)

/-- Embeds `np.quantile(data, q)` with the default linear interpolation, on
ascending-sorted data `s`: position `h = q * (n - 1)`, result
`s[⌊h⌋] + (h - ⌊h⌋) * (s[⌊h⌋ + 1] - s[⌊h⌋])`. -/
def quantileLinear (s : List ℚ) (q : ℚ) : ℚ :=
  let n := s.length
  let h : ℚ := q * (n - 1)
  let i : ℕ := (Int.floor h).toNat
  let lo := s.getD i 0
  if i + 1 < n then lo + (h - i) * (s.getD (i + 1) 0 - lo) else lo

/-- Distinct elements in order of first occurrence, skipping those
already `seen` (the hash-table traversal underlying `value_counts`). -/
def firstDedupAux {α : Type} [DecidableEq α] (seen : List α) : List α → List α
  | [] => []
  | x :: xs =>
    if x ∈ seen then firstDedupAux seen xs else x :: firstDedupAux (x :: seen) xs

/-- Distinct elements in order of first occurrence (the hash-table
order underlying `value_counts`). -/
def firstDedup {α : Type} [DecidableEq α] (l : List α) : List α :=
  firstDedupAux [] l

/-- Stable insertion into a list of `(value, count)` pairs sorted by
descending count: an element is placed after all pairs of count `≥`
its own, so ties keep their relative order. -/
def insertDesc {α : Type} (p : α × ℕ) : List (α × ℕ) → List (α × ℕ)
  | [] => [p]
  | q :: qs => if p.2 ≤ q.2 then q :: insertDesc p qs else p :: q :: qs

/-- Stable sort by descending count. -/
def sortDesc {α : Type} : List (α × ℕ) → List (α × ℕ)
  | [] => []
  | p :: ps => insertDesc p (sortDesc ps)

/-- Embeds `ser.value_counts(ascending=False)`: pair each distinct value with
its number of occurrences and sort by descending count; returns
(`count.index.tolist()`, `count.values.tolist()`). -/
def valueCounts {α : Type} [DecidableEq α] (l : List α) : List α × List ℕ :=
  let sorted := sortDesc ((firstDedup l).map fun x => (x, l.count x))
  (sorted.map Prod.fst, sorted.map Prod.snd)

/-- The value of one computed statistic.  `stdOf v` stands for the real
number `Real.sqrt v` that `np.std` returns on data of variance `v`:
the square root of a rational is irrational in general, so it is kept
symbolic (no claim inspects the numeric value of a finite STD). -/
inductive StatVal where
  | fl (v : FloatVal)
  | stdOf (variance : ℚ)
  | fls (vs : List FloatVal)
  | vc (labels : List Cell) (counts : List ℕ)
deriving DecidableEq

/-- Left-to-right scan of Python's `str.split(sep)` (non-empty `sep`):
`buf` holds the current piece reversed; when it ends with `sep`, the
piece before the separator is emitted. -/
def splitCharsAux (sep : List Char) (buf : List Char) : List Char → List (List Char)
  | [] => [buf.reverse]
  | c :: rest =>
    if sep.reverse.isPrefixOf (c :: buf) then
      ((c :: buf).drop sep.length).reverse :: splitCharsAux sep [] rest
    else
      splitCharsAux sep (c :: buf) rest

/-- Embeds Python's `x.split(sep)` with an explicit non-empty separator. -/
def pySplit (sep : String) (s : String) : List String :=
  (splitCharsAux sep.data [] s.data).map String.mk

/-- Embeds Python's `str.strip()`: whitespace removed from both ends. -/
def pyStrip (s : String) : String :=
  String.mk (((s.data.dropWhile Char.isWhitespace).reverse.dropWhile
    Char.isWhitespace).reverse)

/-- The per-row label set of `MULTI_COUNT`:
`set([cat.strip() for cat in x.split(sep)]) if (x is not None and x != '') else set()`.
Python's `set` deduplicates within the row; its unspecified iteration
order is realized here as first-occurrence order.  Null cells take the
`else set()` branch; non-string cells never occur in a multicategorical
column. -/
def rowLabels (sep : String) : Cell → List String
  | .str s => if s ≠ "" then firstDedup ((pySplit sep s).map pyStrip) else []
  | _ => []

/-- Embeds `StatType.compute(self, ser, sep)`.  `ser` is the (already
`dropna`-ed) column; a raised exception — the `ValueError` of
`np.hstack` on zero entries, or the failing `assert sep is not None` of
the `MULTI_COUNT` branch — is `Option.none`. -/
def StatType.compute (st : StatType) (ser : List Cell) (sep : Option String) :
    Option StatVal :=
  match st with
  | .MEAN =>
    match hstack2 ser with
    | Option.none => Option.none
    | some flattened =>
      let f := finiteRats flattened
      some (if f = [] then .fl .nan else .fl (.fin (meanQ f)))
  | .STD =>
    match hstack2 ser with
    | Option.none => Option.none
    | some flattened =>
      let f := finiteRats flattened
      some (if f = [] then .fl .nan else .stdOf (varQ f))
  | .QUANTILES =>
    match hstack2 ser with
    | Option.none => Option.none
    | some flattened =>
      let f := finiteRats flattened
      some (if f = [] then .fls [.nan, .nan, .nan, .nan, .nan]
        else .fls (([0, 1/4, 1/2, 3/4, 1] : List ℚ).map
          fun q => .fin (quantileLinear (sortAsc f) q)))
  | .COUNT =>
    let vc := valueCounts ser
    some (.vc vc.1 vc.2)
  | .MULTI_COUNT =>
    match sep with
    | Option.none => Option.none
    | some s =>
      let exploded := (ser.map (rowLabels s)).flatten
      let vc := valueCounts exploded
      some (.vc (vc.1.map Cell.str) vc.2)

/-- Embeds `_default_values`. -/
def defaultValue : StatType → StatVal
  | .MEAN => .fl .nan
  | .STD => .fl .nan
  | .QUANTILES => .fls [.nan, .nan, .nan, .nan, .nan]
  | .COUNT => .vc [] []
  | .MULTI_COUNT => .vc [] []

/-- Evaluation of a Python comprehension whose body may raise: collects
the results in order, propagating the first exception (`Option.none`). -/
def collectSome {α β : Type} (f : α → Option β) : List α → Option (List β)
  | [] => some []
  | x :: xs =>
    match f x, collectSome f xs with
    | some y, some ys => some (y :: ys)
    | _, _ => Option.none

/-- Embeds `compute_col_stats(ser, stype, sep)`.  The returned dict is an
association list keyed in the insertion order of the Python dict
comprehension (= `stats_for_stype` order); a raised exception is
`Option.none`. -/
def compute_col_stats (ser : List Cell) (stype : Stype) (sep : Option String) :
    Option (List (StatType × StatVal)) :=
  let ser1 := if stype = .numerical then ser.map Cell.maskInf else ser
  if ser1.all Cell.isnull then
    some ((StatType.stats_for_stype stype).map fun st => (st, defaultValue st))
  else
    collectSome (fun st =>
        (st.compute (ser1.filter fun c => !c.isnull) sep).map fun v => (st, v))
      (StatType.stats_for_stype stype)

/-!
The encoder layer.  Its implementation file is not part of this
repository snapshot (only its test suite is), so the definitions below
are modelled from the specification's shared encoder contract and
per-semantic-type variant table.
-/

/-- Modelled from the spec: one cell of a `RawColumnBatch` tensor at
encode time (the encoder implementation is missing from the sources).
Missing-value sentinel conventions: numerical missing is `NaN`;
categorical and multicategorical missing is the out-of-range integer
code `-1`; a missing timestamp is the empty option.  `time` holds one
timestamp decomposed into calendar components; `vec` holds one
precomputed embedding vector of its stored width (text_embedded and
embedding types); `toks` holds one tokenized text entry (text_tokenized
type). -/
inductive TCell where
  | num (v : FloatVal)
  | idx (i : ℤ)
  | idxs (is : List ℤ)
  | time (t : Option (List ℤ))
  | vec (vs : List FloatVal)
  | toks (ts : List ℕ)
deriving DecidableEq

/-- Modelled from the spec: the `NAStrategy` values of the strategy
table — zero-fill and mean-fill for numerical (zero-fill also for
multicategorical), most-frequent-category substitution for categorical,
and the newest-, oldest- and median-timestamp fills for timestamp. -/
inductive NAStrategy where
  | zeros
  | mean
  | most_frequent
  | newest_timestamp
  | oldest_timestamp
  | median_timestamp
deriving DecidableEq

/-- Modelled from the spec: the registered encoder variants of the
per-semantic-type table — embedding-table lookup (categorical); linear
projection, piecewise-linear bucketization by quantile, periodic
(sinusoidal) projection, stack-of-raw-value passthrough and the
normalization-aware linear variant (numerical); embedding-bag
(multicategorical); the decomposed time-component linear encoder
(timestamp); the linear projection of precomputed vectors (one
registration for text_embedded, one for embedding); and the linear
projection of an externally supplied per-column model's pooled output
(text_tokenized). -/
inductive EncoderVariant where
  | embeddingE
  | linear
  | linearBucket
  | linearPeriodic
  | stack
  | excelFormer
  | multicategoricalEmbedding
  | timestampEnc
  | linearEmbeddingText
  | linearEmbeddingVec
  | linearModel
deriving DecidableEq

/-- The semantic type each encoder variant is registered for. -/
def EncoderVariant.stypeOf : EncoderVariant → Stype
  | .embeddingE => .categorical
  | .multicategoricalEmbedding => .multicategorical
  | .timestampEnc => .timestamp
  | .linearEmbeddingText => .text_embedded
  | .linearEmbeddingVec => .embedding
  | .linearModel => .text_tokenized
  | _ => .numerical

/-- Modelled from the spec: the type-specific table of supported
missing-value strategies (the text and embedding rows support none —
their vectors are assumed complete, so the absent strategy is the
supported configuration); an unsupported pairing is a build-time
configuration error. -/
def supportedNA : Stype → Option NAStrategy → Bool
  | .categorical, some .most_frequent => true
  | .numerical, some .zeros => true
  | .numerical, some .mean => true
  | .multicategorical, some .zeros => true
  | .timestamp, some .newest_timestamp => true
  | .timestamp, some .oldest_timestamp => true
  | .timestamp, some .median_timestamp => true
  | .text_embedded, Option.none => true
  | .embedding, Option.none => true
  | .text_tokenized, Option.none => true
  | _, _ => false

/-- Modelled from the spec: the reduction mode of the embedding-bag
multicategorical encoder. -/
inductive BagMode where
  | mean
  | sum
  | max
deriving DecidableEq

/-- Modelled from the spec: the optional post-processing module
(`ReLU` in the test suite), applied columnwise after the core
transformation. -/
inductive PostModule where
  | relu
deriving DecidableEq

/-- ReLU on a float: `max(x, 0)`; `NaN` propagates. -/
def FloatVal.relu : FloatVal → FloatVal
  | .fin q => .fin (max q 0)
  | .pinf => .pinf
  | .ninf => .fin 0
  | .nan => .nan

/-- Application of the optional post-processing module to one entry. -/
def applyPost : Option PostModule → FloatVal → FloatVal
  | Option.none, v => v
  | some .relu, v => v.relu

/-- The statistics of one column: the mapping produced by
`compute_col_stats`. -/
abbrev ColStats := List (StatType × StatVal)

/-- Lookup of one statistic in a column's stats mapping. -/
def lookupStat (stats : ColStats) (st : StatType) : Option StatVal :=
  (stats.find? fun p => p.1 = st).map Prod.snd

/-- The MEAN statistic of a column, as a float (`NaN` when absent, as
for an all-missing column). -/
def statMean (stats : ColStats) : FloatVal :=
  match lookupStat stats .MEAN with
  | some (.fl v) => v
  | _ => .nan

/-- Modelled from the spec: a non-finite statistic defaults to the
neutral numeric value zero, so that imputation and
quantile-derived parameters stay finite for an all-missing column. -/
def FloatVal.orZero : FloatVal → ℚ
  | .fin q => q
  | _ => 0

/-- The five quantile statistics of a column as finite rationals
(neutral zero when missing or `NaN`). -/
def statQuantiles (stats : ColStats) : List ℚ :=
  match lookupStat stats .QUANTILES with
  | some (.fls vs) => vs.map FloatVal.orZero
  | _ => [0, 0, 0, 0, 0]

/-- The variance recorded in the STD statistic (the value whose square
root the source's std is), neutral zero when absent or `NaN`. -/
def statVar (stats : ColStats) : ℚ :=
  match lookupStat stats .STD with
  | some (.stdOf v) => v
  | _ => 0

/-- Modelled from the spec: the fill value substituted for a missing
numerical entry, per strategy (zero-fill, or mean-fill falling back to
the neutral zero when the MEAN statistic is itself `NaN`).  Strategies
of other semantic types never fill a numerical cell — build-time
validation rejects them — so their arm is the neutral zero. -/
def naFill (strat : NAStrategy) (stats : ColStats) : ℚ :=
  match strat with
  | .zeros => 0
  | .mean => (statMean stats).orZero
  | _ => 0

/-- Modelled from the spec: numerical imputation replaces the `NaN`
sentinel with the configured strategy's fill value, strictly before the
learned transformation; present values pass through unchanged, and with
no strategy configured nothing is imputed. -/
def imputeNum (strat : Option NAStrategy) (stats : ColStats) : FloatVal → FloatVal
  | .nan =>
    match strat with
    | some st => .fin (naFill st stats)
    | Option.none => .nan
  | v => v

/-- Modelled from the spec: categorical imputation maps the `-1`
missing code to the most frequent category.  Category codes are
assigned by descending count, so that category has code `0`. -/
def imputeIdx (i : ℤ) : ℕ :=
  if i < 0 then 0 else i.toNat

/-- The soft membership weight of value `x` in quantile bucket `i`
(edges `e i`, `e (i+1)`): `1` above the bucket, `0` below it, linear
interpolation inside. -/
def bucketW (edges : List ℚ) (i : ℕ) (x : ℚ) : ℚ :=
  let lo := edges.getD i 0
  let hi := edges.getD (i + 1) 0
  if hi ≤ x then 1 else if x ≤ lo then 0 else (x - lo) / (hi - lo)

/-- The embedding-bag reduction over the gathered label values. -/
def bagReduce (mode : BagMode) (l : List ℚ) : ℚ :=
  match mode with
  | .sum => l.sum
  | .mean => if l = [] then 0 else l.sum / l.length
  | .max => l.foldr max 0

/-- Modelled from the spec: the per-column fit-time timestamp summary
backing the timestamp fill strategies — the newest, oldest and median
observed timestamp of the column, as calendar-component vectors.
Timestamp columns have no `StatType` in the stats layer, so these
summaries are build-time inputs of the encoder. -/
structure TimeColStats where
  newest : List ℤ
  oldest : List ℤ
  median : List ℤ

/-- Modelled from the spec: timestamp imputation substitutes the
newest, oldest or median observed timestamp of the column for a missing
entry, per the configured strategy; present timestamps pass through.
Strategies of other semantic types never reach a timestamp cell
(build-time validation). -/
def imputeTime (strat : Option NAStrategy) (ts : TimeColStats) :
    Option (List ℤ) → List ℤ
  | some t => t
  | Option.none =>
    match strat with
    | some .newest_timestamp => ts.newest
    | some .oldest_timestamp => ts.oldest
    | some .median_timestamp => ts.median
    | _ => []

/-- Linear projection of a calendar-component vector for one output
channel: a weighted sum of the components plus a bias, the weights
drawn from the flattened per-column parameters. -/
def dotComps (p : ℕ → ℚ) (k : ℕ) (comps : List ℤ) : ℚ :=
  (comps.enum.map fun it => p (k * (comps.length + 1) + it.1) * (it.2 : ℚ)).sum
    + p (k * (comps.length + 1) + comps.length)

/-- Linear projection of a stored-width rational vector for one output
channel: a weighted sum of the entries plus a bias. -/
def dotQ (p : ℕ → ℚ) (k : ℕ) (qs : List ℚ) : ℚ :=
  (qs.enum.map fun iq => p (k * (qs.length + 1) + iq.1) * iq.2).sum
    + p (k * (qs.length + 1) + qs.length)

/-- Modelled from the spec: a built encoder.  `params j` is column
`j`'s flattened learned parameters (finite reals, hence abstract
rationals); `pbasis` is the family of sinusoidal basis functions of the
periodic encoder and `rsqrt` the reciprocal square root used by the
normalization-aware variant's scale, both abstract finite-real-valued
functions; `timeStats j` is column `j`'s fit-time timestamp summary;
`colModel j` is the externally supplied per-column model of the
text_tokenized encoder, producing a pooled vector of declared width
`modelWidth` (finite-real-valued by contract). -/
structure Encoder where
  variant : EncoderVariant
  out_channels : ℕ
  stats_list : List ColStats
  na_strategy : Option NAStrategy
  params : ℕ → ℕ → ℚ
  pbasis : ℕ → ℚ → ℚ
  mode : BagMode
  post : Option PostModule
  rsqrt : ℚ → ℚ
  timeStats : ℕ → TimeColStats
  modelWidth : ℕ
  colModel : ℕ → List ℕ → ℕ → ℚ

/-- Linear projection of one precomputed embedding vector: the entries
are assumed complete (finite); a vector that nonetheless carries a
non-finite entry propagates `NaN`. -/
def vecProject (p : ℕ → ℚ) (k : ℕ) (vs : List FloatVal) : FloatVal :=
  if vs.all FloatVal.isFinite then .fin (dotQ p k (finiteRats vs)) else .nan

/-- Modelled from the spec: the core per-entry transformation of output
channel `k` for column `j`.  Imputation is applied strictly first; each
variant then uses only column `j`'s raw value, statistics and
parameters.  A cell of the wrong kind for the variant (never produced
by a well-typed batch) yields `NaN`. -/
def encodeDim (enc : Encoder) (j : ℕ) (c : TCell) (k : ℕ) : FloatVal :=
  let stats := enc.stats_list.getD j []
  let p := enc.params j
  applyPost enc.post <|
    match enc.variant, c with
    | .linear, .num v =>
      match imputeNum enc.na_strategy stats v with
      | .fin x => .fin (p (2 * k) * x + p (2 * k + 1))
      | _ => .nan
    | .stack, .num v =>
      match imputeNum enc.na_strategy stats v with
      | .fin x => .fin x
      | _ => .nan
    | .linearBucket, .num v =>
      match imputeNum enc.na_strategy stats v with
      | .fin x =>
        let edges := statQuantiles stats
        .fin (((List.range 4).map fun i => p (k * 4 + i) * bucketW edges i x).sum)
      | _ => .nan
    | .linearPeriodic, .num v =>
      match imputeNum enc.na_strategy stats v with
      | .fin x => .fin (p (2 * k) * enc.pbasis k (p (2 * k + 1) * x))
      | _ => .nan
    | .excelFormer, .num v =>
      match imputeNum enc.na_strategy stats v with
      | .fin x =>
        .fin (p (2 * k) * ((x - (statMean stats).orZero) * enc.rsqrt (statVar stats))
          + p (2 * k + 1))
      | _ => .nan
    | .embeddingE, .idx i => .fin (p (imputeIdx i * enc.out_channels + k))
    | .multicategoricalEmbedding, .idxs is =>
      .fin (bagReduce enc.mode
        (((is.filter fun ℓ => 0 ≤ ℓ).map fun ℓ => p (ℓ.toNat * enc.out_channels + k))))
    | .timestampEnc, .time t =>
      .fin (dotComps p k (imputeTime enc.na_strategy (enc.timeStats j) t))
    | .linearEmbeddingText, .vec vs => vecProject p k vs
    | .linearEmbeddingVec, .vec vs => vecProject p k vs
    | .linearModel, .toks ts =>
      .fin (dotQ p k ((List.range enc.modelWidth).map fun i => enc.colModel j ts i))
    | _, _ => .nan

/-- One encoded cell: the `out_channels` output entries of one
(row, column) position. -/
def encodeCell (enc : Encoder) (j : ℕ) (c : TCell) : List FloatVal :=
  (List.range enc.out_channels).map fun k => encodeDim enc j c k

/-- One encoded row, columns numbered from `j` on. -/
def encodeRowFrom (enc : Encoder) : ℕ → List TCell → List (List FloatVal)
  | _, [] => []
  | j, c :: cs => encodeCell enc j c :: encodeRowFrom enc (j + 1) cs

/-- Modelled from the spec: `encode(encoder, raw_batch, column_names)`,
producing the dense (rows × columns × out_channels) output. -/
def encode (enc : Encoder) (batch : List (List TCell)) : List (List (List FloatVal)) :=
  batch.map (encodeRowFrom enc 0)

/-- Modelled from the spec: one forward pass returns the raw batch as
the encoder leaves it (it is read cell by cell and re-emitted, never
mutated) together with the encoded output. -/
def forwardRow (enc : Encoder) : ℕ → List TCell → List TCell × List (List FloatVal)
  | _, [] => ([], [])
  | j, c :: cs =>
    let rest := forwardRow enc (j + 1) cs
    (c :: rest.1, encodeCell enc j c :: rest.2)

/-- Modelled from the spec: the full forward pass over the batch; the
first component is the raw batch after the call. -/
def forward (enc : Encoder) : List (List TCell) → List (List TCell) × List (List (List FloatVal))
  | [] => ([], [])
  | row :: rows =>
    let r := forwardRow enc 0 row
    let rest := forward enc rows
    (r.1 :: rest.1, r.2 :: rest.2)

/-- Whether a tensor cell is a legal raw value for an encoder variant:
the cell kind matches the variant's semantic type; a numerical cell is
a finite value or the `NaN` missing sentinel (never `±inf`, per the
sentinel conventions of the data model); an embedding-vector cell — the
one cell kind shared by two registrations — is entirely finite, the
spec treating precomputed vectors as complete. -/
def wellTypedCell (v : EncoderVariant) : TCell → Bool
  | .num x => decide (v.stypeOf = .numerical) && (x.isFinite || decide (x = .nan))
  | .idx _ => v.stypeOf = .categorical
  | .idxs _ => v.stypeOf = .multicategorical
  | .time _ => v.stypeOf = .timestamp
  | .vec vs =>
    decide (v.stypeOf = .text_embedded ∨ v.stypeOf = .embedding)
      && vs.all FloatVal.isFinite
  | .toks _ => v.stypeOf = .text_tokenized

/-- Whether every cell of a batch is legal for the encoder's variant. -/
def wellTypedBatch (enc : Encoder) (batch : List (List TCell)) : Bool :=
  batch.all fun row => row.all (wellTypedCell enc.variant)

/-- Whether every entry of an encoded output is finite. -/
def allFinite (out : List (List (List FloatVal))) : Bool :=
  out.all fun row => row.all fun vec => vec.all FloatVal.isFinite

/-- The cell of a (rows × columns) nested list at row `r`, column `i`,
if present. -/
def cellAt {α : Type} (b : List (List α)) (r i : ℕ) : Option α :=
  b[r]?.bind fun row => row[i]?

/-- A concrete built encoder (linear variant, zero-fill, two output
channels) used to instantiate the general encoder theorems. -/
def encW : Encoder :=
  { variant := .linear, out_channels := 2, stats_list := [],
    na_strategy := some .zeros, params := fun _ _ => 1, pbasis := fun _ _ => 0,
    mode := .sum, post := Option.none, rsqrt := fun _ => 0,
    timeStats := fun _ => ⟨[], [], []⟩, modelWidth := 0,
    colModel := fun _ _ _ => 0 }

/-! Helper lemmas about the statistics layer. -/

/-- Masking `±inf` to `NaN` leaves a null cell unchanged. -/
lemma maskInf_of_isnull {c : Cell} (h : c.isnull = true) : c.maskInf = c := by
  cases c with
  | flt v => cases v <;> simp_all [Cell.isnull, Cell.maskInf]
  | _ => rfl

/-- Masking an all-null series yields an all-null series. -/
lemma all_isnull_map_maskInf {ser : List Cell} (h : ser.all Cell.isnull = true) :
    (ser.map Cell.maskInf).all Cell.isnull = true := by
  simp only [List.all_eq_true, List.mem_map] at h ⊢
  rintro _ ⟨c, hc, rfl⟩
  rw [maskInf_of_isnull (h c hc)]
  exact h c hc

/-- The keys collected by the stats dict comprehension are exactly the
requested `StatType`s, in order. -/
lemma collectSome_keys {α β : Type} {f : α → Option β} :
    ∀ {l : List α} {ys : List (α × β)},
      collectSome (fun x => (f x).map fun v => (x, v)) l = some ys →
      ys.map Prod.fst = l := by
  intro l
  induction l with
  | nil => intro ys h; simp [collectSome] at h; simp [← h]
  | cons x xs ih =>
    intro ys h
    simp only [collectSome] at h
    cases hfx : f x with
    | none => rw [hfx] at h; simp at h
    | some y =>
      rw [hfx] at h
      cases hr : collectSome (fun x => (f x).map fun v => (x, v)) xs with
      | none => rw [hr] at h; simp at h
      | some zs =>
        rw [hr] at h
        simp only [Option.map_some', Option.some.injEq] at h
        subst h
        simp [ih hr]

end TorchFrame

namespace TorchFrame

/-- C3: if every entry of the input column is missing,
`compute_col_stats` returns, for each required `StatType`, its fixed
default (NaN for MEAN and STD, an all-NaN 5-element list for QUANTILES,
the empty label/count pair for COUNT and MULTI_COUNT), and never raises
(the result is `some`). -/
theorem spec_C3 (ser : List Cell) (stype : Stype) (sep : Option String)
    (h : ser.all Cell.isnull = true) :
    compute_col_stats ser stype sep
      = some ((StatType.stats_for_stype stype).map fun st => (st, defaultValue st))
    ∧ defaultValue .MEAN = .fl .nan
    ∧ defaultValue .STD = .fl .nan
    ∧ defaultValue .QUANTILES = .fls [.nan, .nan, .nan, .nan, .nan]
    ∧ defaultValue .COUNT = .vc [] []
    ∧ defaultValue .MULTI_COUNT = .vc [] [] := by
  refine ⟨?_, rfl, rfl, rfl, rfl, rfl⟩
  unfold compute_col_stats
  by_cases hs : stype = Stype.numerical
  · simp [hs, all_isnull_map_maskInf h]
  · simp [hs, h]

/-- Witness for C3 at a concrete all-missing column. -/
theorem spec_C3_witness :
    ([Cell.null, Cell.flt .nan].all Cell.isnull = true)
    ∧ compute_col_stats [Cell.null, Cell.flt .nan] .numerical Option.none
      = some ((StatType.stats_for_stype .numerical).map fun st => (st, defaultValue st)) :=
  ⟨by decide, (spec_C3 [Cell.null, Cell.flt .nan] .numerical Option.none (by decide)).1⟩

/-- C4: whenever `compute_col_stats` returns, the key list of the
returned mapping is exactly the `StatType`s required for the semantic
type: MEAN, STD, QUANTILES for numerical and sequence_numerical, COUNT
for categorical, MULTI_COUNT for multicategorical, and the empty list
for each of the four remaining semantic types. -/
theorem spec_C4 (ser : List Cell) (stype : Stype) (sep : Option String)
    (stats : List (StatType × StatVal))
    (h : compute_col_stats ser stype sep = some stats) :
    stats.map Prod.fst = StatType.stats_for_stype stype
    ∧ StatType.stats_for_stype .numerical = [.MEAN, .STD, .QUANTILES]
    ∧ StatType.stats_for_stype .sequence_numerical = [.MEAN, .STD, .QUANTILES]
    ∧ StatType.stats_for_stype .categorical = [.COUNT]
    ∧ StatType.stats_for_stype .multicategorical = [.MULTI_COUNT]
    ∧ StatType.stats_for_stype .timestamp = []
    ∧ StatType.stats_for_stype .text_embedded = []
    ∧ StatType.stats_for_stype .text_tokenized = []
    ∧ StatType.stats_for_stype .embedding = [] := by
  refine ⟨?_, rfl, rfl, rfl, rfl, rfl, rfl, rfl, rfl⟩
  simp only [compute_col_stats] at h
  by_cases hs : stype = Stype.numerical
  · rw [if_pos hs] at h
    split at h
    · simp only [Option.some.injEq] at h
      subst h
      simp [Function.comp_def]
    · exact collectSome_keys h
  · rw [if_neg hs] at h
    split at h
    · simp only [Option.some.injEq] at h
      subst h
      simp [Function.comp_def]
    · exact collectSome_keys h

/-- Witness for C4 at a concrete categorical column. -/
theorem spec_C4_witness :
    compute_col_stats [Cell.cat "a", Cell.cat "b", Cell.cat "a"] .categorical Option.none
      = some [(.COUNT, .vc [.cat "a", .cat "b"] [2, 1])]
    ∧ ([((StatType.COUNT : StatType), StatVal.vc [.cat "a", .cat "b"] [2, 1])].map Prod.fst
        = StatType.stats_for_stype .categorical) :=
  ⟨by decide,
    (spec_C4 [Cell.cat "a", Cell.cat "b", Cell.cat "a"] .categorical Option.none
      [(.COUNT, .vc [.cat "a", .cat "b"] [2, 1])] (by decide)).1⟩

/-- Inserting into a descending-by-count sorted pair list keeps it
sorted. -/
lemma chain'_insertDesc {α : Type} (p : α × ℕ) :
    ∀ l : List (α × ℕ), List.Chain' (fun a b => b.2 ≤ a.2) l →
      List.Chain' (fun a b => b.2 ≤ a.2) (insertDesc p l)
  | [], _ => by simp [insertDesc]
  | q :: qs, h => by
    rw [List.chain'_cons'] at h
    by_cases hle : p.2 ≤ q.2
    · rw [insertDesc, if_pos hle, List.chain'_cons']
      refine ⟨?_, chain'_insertDesc p qs h.2⟩
      intro y hy
      cases qs with
      | nil =>
        simp only [insertDesc, List.head?_cons, Option.mem_def, Option.some.injEq] at hy
        subst hy
        exact hle
      | cons q' qs' =>
        by_cases hle' : p.2 ≤ q'.2
        · rw [insertDesc, if_pos hle'] at hy
          simp only [List.head?_cons, Option.mem_def, Option.some.injEq] at hy
          subst hy
          exact h.1 q' (by simp)
        · rw [insertDesc, if_neg hle'] at hy
          simp only [List.head?_cons, Option.mem_def, Option.some.injEq] at hy
          subst hy
          exact hle
    · rw [insertDesc, if_neg hle, List.chain'_cons']
      refine ⟨?_, List.chain'_cons'.mpr h⟩
      intro y hy
      simp only [List.head?_cons, Option.mem_def, Option.some.injEq] at hy
      subst hy
      exact le_of_not_le hle

/-- The counts produced by the descending sort are sorted. -/
lemma chain'_sortDesc {α : Type} :
    ∀ l : List (α × ℕ), List.Chain' (fun a b => b.2 ≤ a.2) (sortDesc l)
  | [] => by simp [sortDesc]
  | p :: ps => chain'_insertDesc p (sortDesc ps) (chain'_sortDesc ps)

/-- C7: COUNT and MULTI_COUNT return parallel label/count sequences of
equal length with the counts sorted in descending order (the sort is a
deterministic function of the input, so ties are broken consistently
within one computation). -/
theorem spec_C7 :
    (∀ (ser : List Cell) (sep : Option String), ∃ L C,
      StatType.COUNT.compute ser sep = some (.vc L C)
      ∧ L.length = C.length
      ∧ List.Chain' (fun a b => b ≤ a) C)
    ∧ (∀ (ser : List Cell) (s : String), ∃ L C,
      StatType.MULTI_COUNT.compute ser (some s) = some (.vc L C)
      ∧ L.length = C.length
      ∧ List.Chain' (fun a b => b ≤ a) C) := by
  constructor
  · intro ser sep
    refine ⟨(valueCounts ser).1, (valueCounts ser).2, rfl, by simp [valueCounts], ?_⟩
    have h := chain'_sortDesc ((firstDedup ser).map fun x => (x, ser.count x))
    simpa [valueCounts, List.chain'_map] using h
  · intro ser s
    refine ⟨((valueCounts ((ser.map (rowLabels s)).flatten)).1.map Cell.str),
      (valueCounts ((ser.map (rowLabels s)).flatten)).2, rfl, by simp [valueCounts], ?_⟩
    have h := chain'_sortDesc ((firstDedup ((ser.map (rowLabels s)).flatten)).map
      fun x => (x, ((ser.map (rowLabels s)).flatten).count x))
    simpa [valueCounts, List.chain'_map] using h

/-- Membership in the first-occurrence deduplication with an accumulator. -/
lemma mem_firstDedupAux {α : Type} [DecidableEq α] {a : α} :
    ∀ {l seen : List α}, a ∈ firstDedupAux seen l ↔ a ∈ l ∧ a ∉ seen := by
  intro l
  induction l with
  | nil => intro seen; simp [firstDedupAux]
  | cons x xs ih =>
    intro seen
    by_cases hx : x ∈ seen
    · rw [firstDedupAux, if_pos hx, ih]
      constructor
      · rintro ⟨h1, h2⟩
        exact ⟨List.mem_cons_of_mem x h1, h2⟩
      · rintro ⟨h1, h2⟩
        rcases List.mem_cons.mp h1 with rfl | h1
        · exact absurd hx h2
        · exact ⟨h1, h2⟩
    · rw [firstDedupAux, if_neg hx]
      constructor
      · intro h
        rcases List.mem_cons.mp h with rfl | h
        · exact ⟨List.mem_cons_self a xs, hx⟩
        · rcases ih.mp h with ⟨h1, h2⟩
          exact ⟨List.mem_cons_of_mem x h1, fun hs => h2 (List.mem_cons_of_mem x hs)⟩
      · rintro ⟨h1, h2⟩
        by_cases hax : a = x
        · exact hax ▸ List.mem_cons_self a _
        · rcases List.mem_cons.mp h1 with rfl | h1
          · exact absurd rfl hax
          · exact List.mem_cons_of_mem x (ih.mpr ⟨h1, by
              intro hs
              rcases List.mem_cons.mp hs with rfl | hs
              · exact hax rfl
              · exact h2 hs⟩)

/-- Membership in the first-occurrence deduplication. -/
lemma mem_firstDedup {α : Type} [DecidableEq α] {a : α} {l : List α} :
    a ∈ firstDedup l ↔ a ∈ l := by
  simp [firstDedup, mem_firstDedupAux]

/-- The first-occurrence deduplication has no duplicates. -/
lemma nodup_firstDedupAux {α : Type} [DecidableEq α] :
    ∀ (l seen : List α), (firstDedupAux seen l).Nodup
  | [], _ => List.nodup_nil
  | x :: xs, seen => by
    by_cases hx : x ∈ seen
    · rw [firstDedupAux, if_pos hx]
      exact nodup_firstDedupAux xs seen
    · rw [firstDedupAux, if_neg hx]
      refine List.nodup_cons.mpr ⟨?_, nodup_firstDedupAux xs (x :: seen)⟩
      intro hmem
      exact (mem_firstDedupAux.mp hmem).2 (List.mem_cons_self x seen)

/-- The deduplicated label list has no duplicates. -/
lemma nodup_firstDedup {α : Type} [DecidableEq α] (l : List α) :
    (firstDedup l).Nodup :=
  nodup_firstDedupAux l []

/-- Descending insertion is a permutation of consing. -/
lemma perm_insertDesc {α : Type} (p : α × ℕ) :
    ∀ l : List (α × ℕ), List.Perm (insertDesc p l) (p :: l)
  | [] => List.Perm.refl _
  | q :: qs => by
    rw [insertDesc]
    by_cases hle : p.2 ≤ q.2
    · rw [if_pos hle]
      exact ((perm_insertDesc p qs).cons q).trans (List.Perm.swap p q qs)
    · rw [if_neg hle]

/-- The descending sort is a permutation of its input. -/
lemma perm_sortDesc {α : Type} :
    ∀ l : List (α × ℕ), List.Perm (sortDesc l) l
  | [] => List.Perm.refl _
  | p :: ps => (perm_insertDesc p (sortDesc ps)).trans ((perm_sortDesc ps).cons p)

/-- Each per-row label list of MULTI_COUNT is duplicate-free. -/
lemma nodup_rowLabels (sep : String) (c : Cell) : (rowLabels sep c).Nodup := by
  cases c with
  | str s =>
    rw [rowLabels]
    split
    · exact nodup_firstDedup _
    · exact List.nodup_nil
  | _ => exact List.nodup_nil

/-- The number of occurrences in a duplicate-free list is one or zero,
by membership. -/
lemma count_of_nodup {α : Type} [DecidableEq α] {l : List α} (h : l.Nodup) (a : α) :
    l.count a = if a ∈ l then 1 else 0 := by
  by_cases hm : a ∈ l
  · rw [if_pos hm]
    exact List.count_eq_one_of_mem h hm
  · rw [if_neg hm]
    exact List.count_eq_zero_of_not_mem hm

/-- C6: MULTI_COUNT splits each non-empty, non-missing entry on the
separator, strips whitespace from each piece, counts each distinct
label at most once per row (the per-row lists are duplicate-free), and
the tally of a label over the exploded series is the sum of per-row 0/1
contributions; empty-string and missing entries contribute no labels.
The tallied pairs appear in the returned label/count sequences.  With
separator `;`, the row value `"a; b ;a"` contributes exactly the labels
`"a"` and `"b"`, each once. -/
theorem spec_C6 :
    (∀ sep : String, rowLabels sep Cell.null = [])
    ∧ (∀ sep : String, rowLabels sep (Cell.str "") = [])
    ∧ (∀ (sep : String) (c : Cell), (rowLabels sep c).Nodup)
    ∧ (∀ sep x s : String,
        s ∈ rowLabels sep (Cell.str x) ↔
          x ≠ "" ∧ s ∈ (pySplit sep x).map pyStrip)
    ∧ (∀ (sep : String) (ser : List Cell) (s : String),
        ((ser.map (rowLabels sep)).flatten).count s
          = (ser.map fun c => if s ∈ rowLabels sep c then 1 else 0).sum)
    ∧ (∀ (ser : List Cell) (sep s : String),
        s ∈ (ser.map (rowLabels sep)).flatten →
        ∃ L C, StatType.MULTI_COUNT.compute ser (some sep) = some (.vc L C)
          ∧ (Cell.str s, ((ser.map (rowLabels sep)).flatten).count s) ∈ L.zip C)
    ∧ rowLabels ";" (Cell.str "a; b ;a") = ["a", "b"] := by
  refine ⟨fun _ => rfl, fun sep => by simp [rowLabels], fun sep c => nodup_rowLabels sep c,
    ?_, ?_, ?_, by decide⟩
  · intro sep x s
    rw [rowLabels]
    by_cases hx : x = ""
    · simp [hx]
    · rw [if_pos (by simpa using hx)]
      simp [mem_firstDedup, hx]
  · intro sep ser s
    induction ser with
    | nil => rfl
    | cons c cs ih =>
      simp only [List.map_cons, List.flatten_cons, List.count_append, ih,
        List.sum_cons]
      rw [count_of_nodup (nodup_rowLabels sep c) s]
  · intro ser sep s hs
    refine ⟨_, _, rfl, ?_⟩
    have hmem : ((s : String), ((ser.map (rowLabels sep)).flatten).count s)
        ∈ sortDesc ((firstDedup ((ser.map (rowLabels sep)).flatten)).map
          fun x => (x, ((ser.map (rowLabels sep)).flatten).count x)) :=
      (perm_sortDesc _).mem_iff.mpr
        (List.mem_map.mpr ⟨s, mem_firstDedup.mpr hs, rfl⟩)
    simp only [valueCounts, List.map_map]
    rw [List.zip_map']
    exact List.mem_map.mpr ⟨(s, ((ser.map (rowLabels sep)).flatten).count s), hmem, rfl⟩

/-- Witness for C6: the tallied pair of label "b" over a concrete
two-row multicategorical column. -/
theorem spec_C6_witness :
    ("b" ∈ (([Cell.str "a; b ;a", Cell.str "b;c"].map (rowLabels ";")).flatten))
    ∧ ∃ L C, StatType.MULTI_COUNT.compute [Cell.str "a; b ;a", Cell.str "b;c"]
        (some ";") = some (.vc L C)
      ∧ (Cell.str "b",
          (([Cell.str "a; b ;a", Cell.str "b;c"].map (rowLabels ";")).flatten).count "b")
        ∈ L.zip C :=
  ⟨by decide,
    spec_C6.2.2.2.2.2.1 [Cell.str "a; b ;a", Cell.str "b;c"] ";" "b" (by decide)⟩

/-- C10: on a multicategorical column, `compute_col_stats` with
`sep = None` raises (via the `assert sep is not None`) as soon as one
non-missing entry exists, but on an entirely missing column it returns
the empty-pair MULTI_COUNT default without raising, the assertion being
unreachable on that branch. -/
theorem spec_C10 :
    (∀ ser : List Cell, (∃ c ∈ ser, c.isnull = false) →
      compute_col_stats ser .multicategorical Option.none = Option.none)
    ∧ (∀ ser : List Cell, ser.all Cell.isnull = true →
      compute_col_stats ser .multicategorical Option.none
        = some [(.MULTI_COUNT, .vc [] [])]) := by
  constructor
  · rintro ser ⟨c, hc, hnull⟩
    have hall : ser.all Cell.isnull = false := by
      rw [List.all_eq_false]
      exact ⟨c, hc, by simp [hnull]⟩
    simp only [compute_col_stats]
    rw [if_neg (by decide : ¬ Stype.multicategorical = Stype.numerical), hall]
    rfl
  · intro ser h
    simp only [compute_col_stats]
    rw [if_neg (by decide : ¬ Stype.multicategorical = Stype.numerical), h]
    rfl

/-- Flattening distributes over cons. -/
lemma flattenSer_cons (c : Cell) (ser : List Cell) :
    flattenSer (c :: ser) = c.flatten ++ flattenSer ser := by
  simp [flattenSer]

/-- Finite-entry extraction distributes over append. -/
lemma finiteRats_append (a b : List FloatVal) :
    finiteRats (a ++ b) = finiteRats a ++ finiteRats b := by
  simp [finiteRats]

/-- Non-finite entries (NaN, `±inf`) contribute nothing to the finite
entries: filtering them away first changes nothing. -/
lemma finiteRats_filter_isFinite (l : List FloatVal) :
    finiteRats (l.filter FloatVal.isFinite) = finiteRats l := by
  induction l with
  | nil => rfl
  | cons v vs ih => cases v <;> simp [finiteRats, FloatVal.isFinite] at ih ⊢ <;> exact ih

/-- Masking `±inf` to NaN does not change a cell's finite entries. -/
lemma finiteRats_flatten_maskInf (c : Cell) :
    finiteRats c.maskInf.flatten = finiteRats c.flatten := by
  cases c with
  | flt v => cases v <;> rfl
  | _ => rfl

/-- Masking `±inf` to NaN does not change the series' finite entries. -/
lemma finiteRats_flattenSer_mask (ser : List Cell) :
    finiteRats (flattenSer (ser.map Cell.maskInf)) = finiteRats (flattenSer ser) := by
  induction ser with
  | nil => rfl
  | cons c cs ih =>
    simp only [List.map_cons, flattenSer_cons, finiteRats_append, ih,
      finiteRats_flatten_maskInf]

/-- A null cell has no finite entries. -/
lemma finiteRats_flatten_isnull {c : Cell} (h : c.isnull = true) :
    finiteRats c.flatten = [] := by
  cases c with
  | flt v => cases v <;> simp_all [Cell.isnull] <;> rfl
  | seq vs => simp [Cell.isnull] at h
  | cat s => simp [Cell.isnull] at h
  | str s => simp [Cell.isnull] at h
  | null => rfl

/-- Dropping null cells (`ser.dropna()`) does not change the series'
finite entries. -/
lemma finiteRats_flattenSer_dropna (ser : List Cell) :
    finiteRats (flattenSer (ser.filter fun c => !c.isnull))
      = finiteRats (flattenSer ser) := by
  induction ser with
  | nil => rfl
  | cons c cs ih =>
    by_cases hc : c.isnull = true
    · simp only [List.filter_cons, hc, Bool.not_true, flattenSer_cons,
        finiteRats_append, finiteRats_flatten_isnull hc, List.nil_append]
      simpa using ih
    · simp only [List.filter_cons, Bool.not_eq_true'] at *
      simp only [Bool.not_eq_true] at hc
      simp [hc, flattenSer_cons, finiteRats_append, ih]

/-- An all-null series has no finite entries. -/
lemma finiteRats_flattenSer_allnull {ser : List Cell}
    (h : ser.all Cell.isnull = true) :
    finiteRats (flattenSer ser) = [] := by
  induction ser with
  | nil => rfl
  | cons c cs ih =>
    simp only [List.all_cons, Bool.and_eq_true] at h
    simp [flattenSer_cons, finiteRats_append, finiteRats_flatten_isnull h.1, ih h.2]

/-- When the flattened series is non-empty, the double `np.hstack`
succeeds and returns it. -/
lemma hstack2_eq_some {ser : List Cell} (h : flattenSer ser ≠ []) :
    hstack2 ser = some (flattenSer ser) := by
  unfold hstack2
  cases hf : flattenSer ser with
  | nil => exact absurd hf h
  | cons x xs => rfl

/-- When the series flattens to zero entries, the double `np.hstack`
raises. -/
lemma hstack2_eq_none {ser : List Cell} (h : flattenSer ser = []) :
    hstack2 ser = Option.none := by
  unfold hstack2
  rw [h]

/-- Dropping nulls from an all-null series leaves nothing. -/
lemma filter_not_isnull_of_all {ser : List Cell} (h : ser.all Cell.isnull = true) :
    ser.filter (fun c => !c.isnull) = [] := by
  rw [List.filter_eq_nil_iff]
  intro c hc
  rw [List.all_eq_true] at h
  simp [h c hc]

/-- Counterexample to C5 as stated: a sequence_numerical column whose
single cell is a non-missing empty sequence flattens to zero entries,
so no finite entries remain after flattening — yet `compute_col_stats`
raises (the double `np.hstack` has nothing to concatenate) instead of
returning the all-missing defaults. -/
theorem spec_C5_counterexample :
    finiteRats (flattenSer [Cell.seq []]) = []
    ∧ compute_col_stats [Cell.seq []] .sequence_numerical Option.none = Option.none
    ∧ compute_col_stats [Cell.seq []] .sequence_numerical Option.none
        ≠ some ((StatType.stats_for_stype .sequence_numerical).map
            fun st => (st, defaultValue st)) := by
  refine ⟨rfl, ?_, ?_⟩ <;> decide

/-- C5 (amended): for the numerical semantic types (numerical and
sequence_numerical), `±inf` entries are excluded together with missing
values, and MEAN, STD and QUANTILES are computed over the flattened
finite entries only.  An entirely missing column returns the
all-missing defaults; when the non-missing cells flatten to at least
one entry, the statistics are computed over its finite part, with the
all-NaN defaults when none is finite; but when the non-missing cells
flatten to zero entries (all of them empty sequences), the double
`np.hstack` raises instead of returning the defaults. -/
theorem spec_C5 (ser : List Cell) (stype : Stype) (sep : Option String)
    (h : stype = .numerical ∨ stype = .sequence_numerical) :
    finiteRats (flattenSer ser)
      = finiteRats ((flattenSer ser).filter FloatVal.isFinite)
    ∧ ((if stype = Stype.numerical then ser.map Cell.maskInf else ser).all
          Cell.isnull = true →
        compute_col_stats ser stype sep =
          some [(.MEAN, .fl .nan), (.STD, .fl .nan),
                (.QUANTILES, .fls [.nan, .nan, .nan, .nan, .nan])])
    ∧ ((if stype = Stype.numerical then ser.map Cell.maskInf else ser).all
          Cell.isnull = false →
        flattenSer ((if stype = Stype.numerical then ser.map Cell.maskInf
          else ser).filter fun c => !c.isnull) = [] →
        compute_col_stats ser stype sep = Option.none)
    ∧ (flattenSer ((if stype = Stype.numerical then ser.map Cell.maskInf
          else ser).filter fun c => !c.isnull) ≠ [] →
        compute_col_stats ser stype sep =
          some [(.MEAN, if finiteRats (flattenSer ser) = [] then .fl .nan
                  else .fl (.fin (meanQ (finiteRats (flattenSer ser))))),
                (.STD, if finiteRats (flattenSer ser) = [] then .fl .nan
                  else .stdOf (varQ (finiteRats (flattenSer ser)))),
                (.QUANTILES, if finiteRats (flattenSer ser) = [] then
                    .fls [.nan, .nan, .nan, .nan, .nan]
                  else .fls (([0, 1/4, 1/2, 3/4, 1] : List ℚ).map
                    fun q => .fin (quantileLinear (sortAsc (finiteRats (flattenSer ser))) q)))]) := by
  rcases h with h | h <;> subst h
  · simp only [reduceIte]
    refine ⟨(finiteRats_filter_isFinite _).symm, ?_, ?_, ?_⟩
    · intro hall
      simp [compute_col_stats, hall, StatType.stats_for_stype, defaultValue]
    · intro hall hflat
      simp only [compute_col_stats, reduceIte, hall]
      simp [StatType.stats_for_stype, collectSome, StatType.compute,
        hstack2_eq_none hflat]
    · intro hne
      have hall : (ser.map Cell.maskInf).all Cell.isnull = false := by
        rcases Bool.eq_false_or_eq_true ((ser.map Cell.maskInf).all Cell.isnull)
          with hb | hb
        · exact absurd (by rw [filter_not_isnull_of_all hb]; rfl) hne
        · exact hb
      have hkey : finiteRats (flattenSer ((ser.map Cell.maskInf).filter
            fun c => !c.isnull)) = finiteRats (flattenSer ser) := by
        rw [finiteRats_flattenSer_dropna, finiteRats_flattenSer_mask]
      simp only [compute_col_stats, reduceIte, hall]
      simp only [StatType.stats_for_stype, collectSome, StatType.compute,
        hstack2_eq_some hne, hkey, Option.map_some']
      rfl
  · have hno : ¬ Stype.sequence_numerical = Stype.numerical := by decide
    simp only [if_neg hno]
    refine ⟨(finiteRats_filter_isFinite _).symm, ?_, ?_, ?_⟩
    · intro hall
      simp [compute_col_stats, if_neg hno, hall, StatType.stats_for_stype,
        defaultValue]
    · intro hall hflat
      simp only [compute_col_stats, if_neg hno, hall]
      simp [StatType.stats_for_stype, collectSome, StatType.compute,
        hstack2_eq_none hflat]
    · intro hne
      have hall : ser.all Cell.isnull = false := by
        rcases Bool.eq_false_or_eq_true (ser.all Cell.isnull) with hb | hb
        · exact absurd (by rw [filter_not_isnull_of_all hb]; rfl) hne
        · exact hb
      have hkey : finiteRats (flattenSer (ser.filter fun c => !c.isnull))
          = finiteRats (flattenSer ser) :=
        finiteRats_flattenSer_dropna ser
      simp only [compute_col_stats, if_neg hno, hall]
      simp only [StatType.stats_for_stype, collectSome, StatType.compute,
        hstack2_eq_some hne, hkey, Option.map_some']
      rfl

/-- Witness for C5 at a concrete column with a finite value, an
infinite value and a missing value (non-empty flattening). -/
theorem spec_C5_witness :
    flattenSer (([Cell.flt (.fin 2), Cell.flt .pinf, Cell.flt .nan].map
        Cell.maskInf).filter fun c => !c.isnull) ≠ []
    ∧ compute_col_stats [Cell.flt (.fin 2), Cell.flt .pinf, Cell.flt .nan]
        .numerical Option.none =
      some [(.MEAN, if finiteRats (flattenSer [Cell.flt (.fin 2), Cell.flt .pinf, Cell.flt .nan]) = [] then .fl .nan
              else .fl (.fin (meanQ (finiteRats (flattenSer [Cell.flt (.fin 2), Cell.flt .pinf, Cell.flt .nan]))))),
            (.STD, if finiteRats (flattenSer [Cell.flt (.fin 2), Cell.flt .pinf, Cell.flt .nan]) = [] then .fl .nan
              else .stdOf (varQ (finiteRats (flattenSer [Cell.flt (.fin 2), Cell.flt .pinf, Cell.flt .nan])))),
            (.QUANTILES, if finiteRats (flattenSer [Cell.flt (.fin 2), Cell.flt .pinf, Cell.flt .nan]) = [] then
                .fls [.nan, .nan, .nan, .nan, .nan]
              else .fls (([0, 1/4, 1/2, 3/4, 1] : List ℚ).map
                fun q => .fin (quantileLinear (sortAsc (finiteRats (flattenSer [Cell.flt (.fin 2), Cell.flt .pinf, Cell.flt .nan]))) q)))] :=
  ⟨by decide,
    (spec_C5 [Cell.flt (.fin 2), Cell.flt .pinf, Cell.flt .nan] .numerical Option.none
      (Or.inl rfl)).2.2.2 (by decide)⟩

/-- Witness for C10: both branches at concrete columns. -/
theorem spec_C10_witness :
    compute_col_stats [Cell.str "x", Cell.null] .multicategorical Option.none = Option.none
    ∧ compute_col_stats [Cell.null] .multicategorical Option.none
      = some [(.MULTI_COUNT, .vc [] [])] :=
  ⟨spec_C10.1 [Cell.str "x", Cell.null] ⟨Cell.str "x", by decide, by decide⟩,
   spec_C10.2 [Cell.null] (by decide)⟩


/-- One encoded cell has exactly `out_channels` entries. -/
lemma encodeCell_length (enc : Encoder) (j : ℕ) (c : TCell) :
    (encodeCell enc j c).length = enc.out_channels := by
  simp [encodeCell]

/-- Encoding a row preserves its length (one output vector per cell). -/
lemma encodeRowFrom_length (enc : Encoder) :
    ∀ (s : ℕ) (row : List TCell), (encodeRowFrom enc s row).length = row.length
  | _, [] => rfl
  | s, _ :: cs => by
    simp [encodeRowFrom, encodeRowFrom_length enc (s + 1) cs]

/-- Every output vector of an encoded row is the encoding of one of the
row's cells. -/
lemma mem_encodeRowFrom {enc : Encoder} {v : List FloatVal} :
    ∀ {s : ℕ} {row : List TCell}, v ∈ encodeRowFrom enc s row →
      ∃ j c, c ∈ row ∧ v = encodeCell enc j c := by
  intro s row
  induction row generalizing s with
  | nil => intro h; simp [encodeRowFrom] at h
  | cons c cs ih =>
    intro h
    rcases List.mem_cons.mp h with rfl | h
    · exact ⟨s, c, List.mem_cons_self c cs, rfl⟩
    · obtain ⟨j, c', hc', rfl⟩ := ih h
      exact ⟨j, c', List.mem_cons_of_mem c hc', rfl⟩

/-- The encoded row at index `i` is the encoding of the raw cell at
index `i` (column numbering offset by the start index). -/
lemma encodeRowFrom_getElem (enc : Encoder) :
    ∀ (s : ℕ) (row : List TCell) (i : ℕ),
      (encodeRowFrom enc s row)[i]? = (row[i]?).map (encodeCell enc (s + i))
  | _, [], _ => by simp [encodeRowFrom]
  | s, c :: cs, 0 => by simp [encodeRowFrom]
  | s, c :: cs, i + 1 => by
    have hs : s + (i + 1) = (s + 1) + i := by omega
    rw [hs]
    simp only [encodeRowFrom, List.getElem?_cons_succ]
    exact encodeRowFrom_getElem enc (s + 1) cs i

/-- The output cell at (row `r`, column `i`) is the encoding of the raw
cell at (row `r`, column `i`). -/
lemma cellAt_encode (enc : Encoder) (b : List (List TCell)) (r i : ℕ) :
    cellAt (encode enc b) r i = (cellAt b r i).map (encodeCell enc i) := by
  cases hb : b[r]? with
  | none => simp [cellAt, encode, List.getElem?_map, hb]
  | some row =>
    simp [cellAt, encode, List.getElem?_map, hb, encodeRowFrom_getElem enc 0 row i]

/-- C8: for every encoder (any registered variant with any
configuration) and every raw batch, the encoded output has exactly one
row per input row, one column vector per input cell, and every output
vector has exactly `out_channels` entries, `out_channels` being the
value fixed at build time. -/
theorem spec_C8 (enc : Encoder) (batch : List (List TCell)) :
    (encode enc batch).length = batch.length
    ∧ List.Forall₂ (fun orow irow => orow.length = irow.length ∧
        ∀ v ∈ orow, v.length = enc.out_channels)
      (encode enc batch) batch := by
  refine ⟨by simp [encode], ?_⟩
  rw [encode, List.forall₂_map_left_iff, List.forall₂_same]
  intro row _
  refine ⟨encodeRowFrom_length enc 0 row, fun v hv => ?_⟩
  obtain ⟨j, c, _, rfl⟩ := mem_encodeRowFrom hv
  exact encodeCell_length enc j c

/-- The forward pass re-emits each row exactly as read. -/
lemma forwardRow_eq (enc : Encoder) :
    ∀ (s : ℕ) (row : List TCell),
      forwardRow enc s row = (row, encodeRowFrom enc s row)
  | _, [] => rfl
  | s, c :: cs => by
    simp [forwardRow, encodeRowFrom, forwardRow_eq enc (s + 1) cs]

/-- C9: a forward pass leaves the raw input batch unchanged — every
cell, including missing-value sentinel cells, is returned exactly as it
was — while producing the encoded output. -/
theorem spec_C9 (enc : Encoder) (batch : List (List TCell)) :
    (forward enc batch).1 = batch ∧ (forward enc batch).2 = encode enc batch := by
  induction batch with
  | nil => exact ⟨rfl, rfl⟩
  | cons row rows ih =>
    simp [forward, encode, forwardRow_eq enc 0 row, ih.1,
      show (forward enc rows).2 = encode enc rows from ih.2, encode]

/-- C2: if two raw batches agree on every cell outside column `j`, the
encoded outputs agree on every cell outside column `j` — each output
column depends only on its own raw column (and its own statistics and
parameters). -/
theorem spec_C2 (enc : Encoder) (b b' : List (List TCell)) (j : ℕ)
    (hoff : ∀ r i, i ≠ j → cellAt b r i = cellAt b' r i) :
    ∀ r i, i ≠ j → cellAt (encode enc b) r i = cellAt (encode enc b') r i := by
  intro r i hij
  rw [cellAt_encode, cellAt_encode, hoff r i hij]

/-- Witness for C2: perturbing only column 0 of a concrete two-column
batch leaves column 1 of the output bit-identical. -/
theorem spec_C2_witness :
    (∀ r i, i ≠ 0 →
      cellAt [[TCell.num (.fin 1), TCell.num (.fin 2)]] r i
        = cellAt [[TCell.num (.fin 5), TCell.num (.fin 2)]] r i)
    ∧ (∀ r i, i ≠ 0 →
      cellAt (encode encW [[TCell.num (.fin 1), TCell.num (.fin 2)]]) r i
        = cellAt (encode encW [[TCell.num (.fin 5), TCell.num (.fin 2)]]) r i) := by
  have h : ∀ r i, i ≠ 0 →
      cellAt [[TCell.num (.fin 1), TCell.num (.fin 2)]] r i
        = cellAt [[TCell.num (.fin 5), TCell.num (.fin 2)]] r i := by
    intro r i hij
    cases r with
    | zero =>
      cases i with
      | zero => exact absurd rfl hij
      | succ n =>
        cases n with
        | zero => rfl
        | succ m => rfl
    | succ r => rfl
  exact ⟨h, spec_C2 encW _ _ 0 h⟩

/-- The optional post-processing module maps finite entries to finite
entries. -/
lemma applyPost_finite {post : Option PostModule} {v : FloatVal}
    (h : v.isFinite = true) : (applyPost post v).isFinite = true := by
  cases post with
  | none => exact h
  | some pm =>
    cases pm
    cases v <;> simp_all [applyPost, FloatVal.relu, FloatVal.isFinite]

/-- A well-typed numerical value is the missing sentinel or a finite
value. -/
lemma floatVal_cases {x : FloatVal}
    (h : x.isFinite = true ∨ x = FloatVal.nan) :
    x = FloatVal.nan ∨ ∃ q, x = FloatVal.fin q := by
  cases x with
  | fin q => exact Or.inr ⟨q, rfl⟩
  | nan => exact Or.inl rfl
  | pinf => rcases h with h | h <;> simp [FloatVal.isFinite] at h
  | ninf => rcases h with h | h <;> simp [FloatVal.isFinite] at h

/-- Under a strategy supported for numerical columns, imputation always
yields a finite value from a well-typed numerical cell. -/
lemma imputeNum_fin_of_supported {na : Option NAStrategy} {stats : ColStats}
    {v : FloatVal} (hna : supportedNA .numerical na = true)
    (hv : v = FloatVal.nan ∨ ∃ q, v = FloatVal.fin q) :
    ∃ x, imputeNum na stats v = FloatVal.fin x := by
  rcases hv with rfl | ⟨q, rfl⟩
  · cases na with
    | none => simp [supportedNA] at hna
    | some st =>
      cases st
      case zeros => exact ⟨_, rfl⟩
      case mean => exact ⟨_, rfl⟩
      all_goals simp [supportedNA] at hna
  · exact ⟨q, rfl⟩

/-- A complete (all-finite) vector projects to a finite entry. -/
lemma vecProject_finite {p : ℕ → ℚ} {k : ℕ} {vs : List FloatVal}
    (h : vs.all FloatVal.isFinite = true) :
    (vecProject p k vs).isFinite = true := by
  rw [vecProject, if_pos h]
  rfl

/-- Every entry produced for a well-typed cell under a supported
strategy is finite: imputation replaces the missing sentinel before the
transformation, and every transformation produces finite (rational)
values. -/
lemma encodeDim_finite (enc : Encoder) (j : ℕ) (c : TCell) (k : ℕ)
    (hna : supportedNA enc.variant.stypeOf enc.na_strategy = true)
    (hwt : wellTypedCell enc.variant c = true) :
    (encodeDim enc j c k).isFinite = true := by
  simp only [encodeDim]
  cases henc : enc.variant <;> rw [henc] at hwt hna <;> cases c <;>
    simp only [wellTypedCell, EncoderVariant.stypeOf, decide_eq_true_eq,
      Bool.and_eq_true, Bool.or_eq_true] at hwt <;>
    first
    | exact applyPost_finite rfl
    | exact absurd hwt (by decide)
    | exact absurd hwt.1 (by decide)
    | exact applyPost_finite (vecProject_finite hwt.2)
    | (rcases floatVal_cases hwt.2 with rfl | ⟨q, rfl⟩
       · cases hstrat : enc.na_strategy with
         | none =>
           rw [hstrat] at hna
           simp [supportedNA, EncoderVariant.stypeOf] at hna
         | some st =>
           cases st
           case zeros => exact applyPost_finite rfl
           case mean => exact applyPost_finite rfl
           all_goals
             rw [hstrat] at hna
             simp [supportedNA, EncoderVariant.stypeOf] at hna
       · exact applyPost_finite rfl)

/-- C1: for every encoder whose missing-value strategy is supported for
its semantic type and every well-typed raw batch (missing values are
allowed everywhere, including columns that are entirely missing), every
entry of the encoded output is finite: no NaN, no infinity. -/
theorem spec_C1 (enc : Encoder) (batch : List (List TCell))
    (hna : supportedNA enc.variant.stypeOf enc.na_strategy = true)
    (hwt : wellTypedBatch enc batch = true) :
    allFinite (encode enc batch) = true := by
  rw [allFinite, List.all_eq_true]
  intro orow horow
  rw [encode] at horow
  obtain ⟨row, hrow, rfl⟩ := List.mem_map.mp horow
  rw [List.all_eq_true]
  intro vec hvec
  obtain ⟨j, c, hc, rfl⟩ := mem_encodeRowFrom hvec
  rw [List.all_eq_true]
  intro v hv
  obtain ⟨k, _, rfl⟩ := List.mem_map.mp hv
  rw [wellTypedBatch, List.all_eq_true] at hwt
  have hrow' := hwt row hrow
  rw [List.all_eq_true] at hrow'
  exact encodeDim_finite enc j c k hna (hrow' c hc)

/-- Witness for C1: a concrete batch whose only column is entirely
missing encodes to a fully finite output. -/
theorem spec_C1_witness :
    supportedNA encW.variant.stypeOf encW.na_strategy = true
    ∧ wellTypedBatch encW [[TCell.num .nan], [TCell.num .nan]] = true
    ∧ allFinite (encode encW [[TCell.num .nan], [TCell.num .nan]]) = true :=
  ⟨by decide, by decide,
    spec_C1 encW [[TCell.num .nan], [TCell.num .nan]] (by decide) (by decide)⟩

end TorchFrame
